import Mathlib

/-!
Verification of the Grover search circuit builder (src/python.py).

The program builds a quantum circuit for Grover's algorithm: an `oracle`
that phase-flips the basis state encoding a target integer, a `diffuser`
performing a reflection, and a driver `grover_search` that assembles
Hadamard layer, `floor (sqrt (2 ^ n))` (oracle, diffuser) pairs, and a
final measurement layer.  Circuits are modelled as append-only lists of
gates; gate semantics act on amplitude vectors over the ring Q2 = ℚ[√2],
which contains the Hadamard normalisation 1/√2 and is computable.
-/

/-- The ring ℚ[√2]: a value `⟨a, b⟩` denotes `a + b·√2`.  All amplitudes
arising from the program's gates (H, X, multi-controlled X) lie in this
ring, and it is computable, so concrete circuits can be evaluated. -/
structure Q2 where
  a : ℚ
  b : ℚ
  deriving DecidableEq

theorem Q2.ext2 {x y : Q2} (ha : x.a = y.a) (hb : x.b = y.b) : x = y := by
  cases x; cases y; cases ha; cases hb; rfl

instance : Zero Q2 := ⟨⟨0, 0⟩⟩

instance : One Q2 := ⟨⟨1, 0⟩⟩

instance : Add Q2 := ⟨fun x y => ⟨x.a + y.a, x.b + y.b⟩⟩

instance : Neg Q2 := ⟨fun x => ⟨-x.a, -x.b⟩⟩

instance : Mul Q2 := ⟨fun x y => ⟨x.a * y.a + 2 * (x.b * y.b), x.a * y.b + x.b * y.a⟩⟩

@[simp] theorem Q2.zero_a : (0 : Q2).a = 0 := rfl

@[simp] theorem Q2.zero_b : (0 : Q2).b = 0 := rfl

@[simp] theorem Q2.one_a : (1 : Q2).a = 1 := rfl

@[simp] theorem Q2.one_b : (1 : Q2).b = 0 := rfl

@[simp] theorem Q2.add_a (x y : Q2) : (x + y).a = x.a + y.a := rfl

@[simp] theorem Q2.add_b (x y : Q2) : (x + y).b = x.b + y.b := rfl

@[simp] theorem Q2.neg_a (x : Q2) : (-x).a = -x.a := rfl

@[simp] theorem Q2.neg_b (x : Q2) : (-x).b = -x.b := rfl

@[simp] theorem Q2.mul_a (x y : Q2) : (x * y).a = x.a * y.a + 2 * (x.b * y.b) := rfl

@[simp] theorem Q2.mul_b (x y : Q2) : (x * y).b = x.a * y.b + x.b * y.a := rfl

instance : CommRing Q2 where
  add_assoc x y z := Q2.ext2 (by simp [add_assoc]) (by simp [add_assoc])
  zero_add x := Q2.ext2 (by simp) (by simp)
  add_zero x := Q2.ext2 (by simp) (by simp)
  add_comm x y := Q2.ext2 (by simp [add_comm]) (by simp [add_comm])
  neg_add_cancel x := Q2.ext2 (by simp) (by simp)
  left_distrib x y z := Q2.ext2 (by simp; ring) (by simp; ring)
  right_distrib x y z := Q2.ext2 (by simp; ring) (by simp; ring)
  zero_mul x := Q2.ext2 (by simp) (by simp)
  mul_zero x := Q2.ext2 (by simp) (by simp)
  mul_assoc x y z := Q2.ext2 (by simp; ring) (by simp; ring)
  one_mul x := Q2.ext2 (by simp) (by simp)
  mul_one x := Q2.ext2 (by simp) (by simp)
  mul_comm x y := Q2.ext2 (by simp; ring) (by simp; ring)
  nsmul := nsmulRec
  zsmul := zsmulRec
  natCast m := ⟨m, 0⟩
  natCast_zero := Q2.ext2 (by simp) (by simp)
  natCast_succ m :=
    Q2.ext2 (by show ((m + 1 : ℕ) : ℚ) = (m : ℚ) + 1; push_cast; ring)
      (by show (0 : ℚ) = 0 + 0; norm_num)
  intCast m := ⟨m, 0⟩
  intCast_ofNat m :=
    Q2.ext2 (by show ((Int.ofNat m : ℤ) : ℚ) = ((m : ℕ) : ℚ); norm_cast)
      (by show (0 : ℚ) = 0; rfl)
  intCast_negSucc m :=
    Q2.ext2 (by show ((Int.negSucc m : ℤ) : ℚ) = -((m + 1 : ℕ) : ℚ); push_cast; ring)
      (by show (0 : ℚ) = -0; norm_num)

@[simp] theorem Q2.natCast_a (m : ℕ) : (m : Q2).a = m := rfl

@[simp] theorem Q2.natCast_b (m : ℕ) : (m : Q2).b = 0 := rfl

@[simp] theorem Q2.ofNat_a (m : ℕ) [m.AtLeastTwo] :
    (OfNat.ofNat m : Q2).a = OfNat.ofNat m := Nat.cast_ofNat

@[simp] theorem Q2.ofNat_b (m : ℕ) [m.AtLeastTwo] :
    (OfNat.ofNat m : Q2).b = 0 := rfl

@[simp] theorem Q2.two_a : (2 : Q2).a = 2 := Q2.ofNat_a 2

@[simp] theorem Q2.two_b : (2 : Q2).b = 0 := rfl

/-- The amplitude scalar 1/√2 = (1/2)·√2 appearing in the Hadamard gate. -/
def Q2.invSqrt2 : Q2 := ⟨0, 1/2⟩

/-- Embedding of the rationals into Q2. -/
def Q2.ofRat (q : ℚ) : Q2 := ⟨q, 0⟩

theorem Q2.invSqrt2_mul_invSqrt2 : Q2.invSqrt2 * Q2.invSqrt2 = Q2.ofRat (1/2) := by
  apply Q2.ext2
  case ha => simp [Q2.invSqrt2, Q2.ofRat]
  case hb => simp [Q2.invSqrt2, Q2.ofRat]

theorem Q2.invSqrt2_sq_two : Q2.invSqrt2 * Q2.invSqrt2 * 2 = 1 := by
  apply Q2.ext2
  case ha => simp [Q2.invSqrt2]
  case hb => simp [Q2.invSqrt2]

@[simp] theorem Q2.ofRat_mul (q r : ℚ) : Q2.ofRat q * Q2.ofRat r = Q2.ofRat (q * r) := by
  apply Q2.ext2 <;> simp [Q2.ofRat]

@[simp] theorem Q2.ofRat_one : Q2.ofRat 1 = 1 := rfl

@[simp] theorem Q2.sub_a (x y : Q2) : (x - y).a = x.a - y.a := by
  rw [sub_eq_add_neg, Q2.add_a, Q2.neg_a, sub_eq_add_neg]

@[simp] theorem Q2.sub_b (x y : Q2) : (x - y).b = x.b - y.b := by
  rw [sub_eq_add_neg, Q2.add_b, Q2.neg_b, sub_eq_add_neg]

/-! ## Circuit model

A gate is one of the operations the program appends: `x` (NOT), `h`
(Hadamard), `mcx` (multi-controlled NOT with a list of control positions
and a target position), or `measure` (quantum position into classical
slot).  A circuit records the number of quantum positions, the number of
classical slots, and the ordered list of appended gates, mirroring
Qiskit's `QuantumCircuit(n, n)` as used by the program. -/

inductive Gate where
  | x (q : Nat)
  | h (q : Nat)
  | mcx (cs : List Nat) (t : Nat)
  | measure (q : Nat) (c : Nat)
  deriving DecidableEq

/-- Whether a gate is a measurement operation. -/
def Gate.isMeasure : Gate → Bool
  | .measure _ _ => true
  | _ => false

structure Circuit where
  nq : Nat
  nc : Nat
  gates : List Gate
  deriving DecidableEq

/-- A basis state of an `n`-qubit register: a bit value per position. -/
abbrev QBasis (n : Nat) := Fin n → Bool

/-- An amplitude vector over the `2 ^ n` basis states. -/
abbrev StateVec (n : Nat) := QBasis n → Q2

/-- Bit value of a basis state at a (Nat) position; `false` out of range. -/
def bval {n : Nat} (q : Nat) (s : QBasis n) : Bool :=
  if h : q < n then s ⟨q, h⟩ else false

/-- Overwrite the bit at position `q` (no effect when `q ≥ n`). -/
def bset {n : Nat} (q : Nat) (b : Bool) (s : QBasis n) : QBasis n :=
  fun i => if (i : Nat) = q then b else s i

/-- Flip the bit at position `q` (no effect when `q ≥ n`). -/
def bflip {n : Nat} (q : Nat) (s : QBasis n) : QBasis n :=
  fun i => if (i : Nat) = q then !(s i) else s i

/-- Unitary action of one gate on an amplitude vector (standard gate
semantics: X permutes basis states, H mixes the two states differing at
its position with normalisation 1/√2, MCX flips the target bit when all
control bits are set; a measurement gate has no amplitude action). -/
def applyGate {n : Nat} (g : Gate) (a : StateVec n) : StateVec n :=
  match g with
  | .x q => fun s => a (bflip q s)
  | .h q => fun s =>
      Q2.invSqrt2 *
        (a (bset q false s) +
          (if bval q s then -(a (bset q true s)) else a (bset q true s)))
  | .mcx cs t => fun s => if cs.all (fun c => bval c s) then a (bflip t s) else a s
  | .measure _ _ => a

/-- Action of a gate list, first gate applied first. -/
def applyGates {n : Nat} (gs : List Gate) (a : StateVec n) : StateVec n :=
  gs.foldl (fun b g => applyGate g b) a

/-! ## Translation of the source (src/python.py)

`oracle`, `diffuser` and `grover_search` are translated directly.
Python list indexing `qubits[i]` raises `IndexError` out of range, so the
translations return `Option`; `qubits[-1]` is the last element and
`qubits[:-1]` drops the last. -/

/-- `format(t, '0' + str(w) + 'b')` for a natural `t`: the binary digits
of `t`, most significant first, left-padded with zeros to width `w`; the
result is wider than `w` when `t` needs more than `w` digits (and `0`
still prints one digit).  A digit is modelled as a `Bool` (`true` = '1'). -/
def binFormat (t w : Nat) : List Bool :=
  let len := max w (max 1 t.size)
  (List.range len).map (fun i => t.testBit (len - 1 - i))

/-- The bit-flip loop of `oracle`:
`for qubit, bit in enumerate(binary_string): if bit == '0': circuit.x(qubits[qubit])`.
`i` is the current enumeration index; the result is the list of appended
X gates, or `none` when `qubits[qubit]` is out of bounds (IndexError). -/
def xLoop (qubits : List Nat) : List Bool → Nat → Option (List Gate)
  | [], _ => some []
  | b :: rest, i =>
    if b then xLoop qubits rest (i + 1)
    else
      match qubits[i]? with
      | none => none
      | some q => (xLoop qubits rest (i + 1)).map (fun gs => Gate.x q :: gs)

/-- `oracle(circuit, qubits, number_to_find)`: X on every position whose
bit of the target's padded binary encoding is '0', then H / MCX / H on
the last position (controls = all but the last), then the X layer again. -/
def oracle (circuit : Circuit) (qubits : List Nat) (number_to_find : Nat) :
    Option Circuit :=
  let binary_string := binFormat number_to_find qubits.length
  match xLoop qubits binary_string 0 with
  | none => none
  | some gs1 =>
    match qubits.getLast? with
    | none => none
    | some last =>
      match xLoop qubits binary_string 0 with
      | none => none
      | some gs2 =>
        some ⟨circuit.nq, circuit.nc,
          circuit.gates ++ gs1 ++
            [Gate.h last, Gate.mcx qubits.dropLast last, Gate.h last] ++ gs2⟩

/-- `diffuser(circuit, qubits)`: H on every position, X on every
position, H / MCX / H on the last position, X on every position, H on
every position. -/
def diffuser (circuit : Circuit) (qubits : List Nat) : Option Circuit :=
  match qubits.getLast? with
  | none => none
  | some last =>
    some ⟨circuit.nq, circuit.nc,
      circuit.gates ++ qubits.map Gate.h ++ qubits.map Gate.x ++
        [Gate.h last, Gate.mcx qubits.dropLast last, Gate.h last] ++
        qubits.map Gate.x ++ qubits.map Gate.h⟩

/-- The 53-bit significand of the double nearest to `√2`, scaled by `2 ^ 52`.
Derived from IEEE 754 round-to-nearest: `f = ⌊√(2 ^ 105)⌋ = ⌊√2 · 2 ^ 52⌋` is
the round-down candidate, and the fractional part of `√2 · 2 ^ 52` exceeds
1/2 exactly when `(2f + 1) ^ 2 < 2 ^ 107`, in which case the nearest double
is `f + 1` (a tie, `(2f + 1) ^ 2 = 2 ^ 107`, is impossible: an odd square is
not a power of two). -/
def sqrt2Sig : Nat :=
  let f := Nat.sqrt (2 ^ 105)
  if (2 * f + 1) ^ 2 < 2 ^ 107 then f + 1 else f

/-- `num_iterations = int(math.sqrt(2**n_qubits))`, modelled faithfully at
double precision.  `float(2**n)` raises OverflowError for `n ≥ 1024` (the
value exceeds the largest double) and is exact for `n ≤ 1023` (a power of
two).  `math.sqrt` is the correctly rounded double square root: for even `n`
the result `2 ^ (n / 2)` is exact; for odd `n` the exact value is
`√2 · 2 ^ (n / 2)`, and — since scaling by a power of two is exact for
doubles in the normal range — the nearest double is
`(sqrt2Sig / 2 ^ 52) · 2 ^ (n / 2)`.  `int` truncates, which on these
nonnegative values is floor division. -/
def num_iterations (n_qubits : Nat) : Option Nat :=
  if 1024 ≤ n_qubits then none
  else if n_qubits % 2 = 0 then some (2 ^ (n_qubits / 2))
  else some (sqrt2Sig * 2 ^ (n_qubits / 2) / 2 ^ 52)

/-- The `for _ in range(num_iterations)` loop of `grover_search`: apply
`oracle` then `diffuser` to the circuit, `k` times; a raised IndexError
(`none`) aborts the loop. -/
def groverLoop (qc : Circuit) (n_qubits number_to_find : Nat) : Nat → Option Circuit
  | 0 => some qc
  | k + 1 =>
    match oracle qc (List.range n_qubits) number_to_find with
    | none => none
    | some qc1 =>
      match diffuser qc1 (List.range n_qubits) with
      | none => none
      | some qc2 => groverLoop qc2 n_qubits number_to_find k

/-- The circuit-construction part of `grover_search(number_to_find, n_qubits)`:
`QuantumCircuit(n, n)`, H on every position, `num_iterations` (oracle,
diffuser) pairs, then `measure(range(n), range(n))`; an OverflowError from
the iteration-count computation (`none`) aborts the run before the loop.
The subsequent submission to the Aer simulator backend is an external
collaborator and is not part of the circuit model. -/
def grover_search (number_to_find n_qubits : Nat) : Option Circuit :=
  let qc : Circuit := ⟨n_qubits, n_qubits, []⟩
  let qc : Circuit := ⟨qc.nq, qc.nc, qc.gates ++ (List.range n_qubits).map Gate.h⟩
  match num_iterations n_qubits with
  | none => none
  | some iters =>
    match groverLoop qc n_qubits number_to_find iters with
    | none => none
    | some qc2 =>
      some ⟨qc2.nq, qc2.nc,
        qc2.gates ++ (List.range n_qubits).map (fun i => Gate.measure i i)⟩

/-- The `n`-bit encoding of a target `t` as a basis state: position `i`
holds bit `n - 1 - i` of `t` (most significant bit at position 0),
matching the enumeration order of the oracle's binary string. -/
def tEnc (n t : Nat) : QBasis n := fun i => t.testBit (n - 1 - (i : Nat))

/-- Sum of all amplitudes of a state vector. -/
def sumAmp (n : Nat) (a : StateVec n) : Q2 := ∑ s : QBasis n, a s

/-- Mean of the `2 ^ n` amplitudes. -/
def meanAmp (n : Nat) (a : StateVec n) : Q2 := Q2.ofRat (1 / 2 ^ n) * sumAmp n a

/-- The all-ones basis state. -/
def allT (n : Nat) : QBasis n := fun _ => true

/-- The all-zeros basis state. -/
def allF (n : Nat) : QBasis n := fun _ => false

/-- Combined effect on a basis state of X gates at the positions in `L`. -/
def flipOn {n : Nat} (L : List Nat) (s : QBasis n) : QBasis n :=
  fun i => if (i : Nat) ∈ L then !(s i) else s i

/-- Positions receiving an X gate in the oracle's bit-flip loop: the
indices (offset by `i`) of the '0' characters of the bit string. -/
def xPos : List Bool → Nat → List Nat
  | [], _ => []
  | b :: rest, i => if b then xPos rest (i + 1) else i :: xPos rest (i + 1)

/-- The gate sequence `oracle` appends for register `range n` and target `t`. -/
def oracleGates (n t : Nat) : List Gate :=
  (xPos (binFormat t n) 0).map Gate.x ++
    ([Gate.h (n - 1), Gate.mcx (List.range (n - 1)) (n - 1), Gate.h (n - 1)] ++
      (xPos (binFormat t n) 0).map Gate.x)

/-- The gate sequence `diffuser` appends for register `range n`. -/
def diffuserGates (n : Nat) : List Gate :=
  (List.range n).map Gate.h ++
    (((List.range n).map Gate.x ++
        ([Gate.h (n - 1), Gate.mcx (List.range (n - 1)) (n - 1), Gate.h (n - 1)] ++
          (List.range n).map Gate.x)) ++
      (List.range n).map Gate.h)

/-- The indicator amplitude vector of the all-zeros basis state. -/
def deltaF (n : Nat) : StateVec n := fun s => if s = allF n then 1 else 0

/-! ## Bit-operation algebra -/

theorem bval_fin {n : Nat} (i : Fin n) (s : QBasis n) : bval (i : Nat) s = s i := by
  unfold bval
  rw [dif_pos i.isLt]

theorem bval_bset_same {n : Nat} {q : Nat} (hq : q < n) (b : Bool) (s : QBasis n) :
    bval q (bset q b s) = b := by
  simp [bval, bset, hq]

theorem bval_bset_ne {n : Nat} (p q : Nat) (h : p ≠ q) (b : Bool) (s : QBasis n) :
    bval p (bset q b s) = bval p s := by
  unfold bval bset
  split
  case isTrue hp => simp [h]
  case isFalse => rfl

theorem bset_bset_same {n : Nat} (q : Nat) (b b' : Bool) (s : QBasis n) :
    bset q b (bset q b' s) = bset q b s := by
  funext i
  by_cases hi : (i : Nat) = q <;> simp [bset, hi]

theorem bflip_bset_same {n : Nat} (q : Nat) (b : Bool) (s : QBasis n) :
    bflip q (bset q b s) = bset q (!b) s := by
  funext i
  by_cases hi : (i : Nat) = q <;> simp [bset, bflip, hi]

theorem bset_eq_self {n : Nat} {q : Nat} {b : Bool} {s : QBasis n}
    (h : bval q s = b) : bset q b s = s := by
  funext i
  simp only [bset]
  split
  case isTrue hiq =>
    have hq : q < n := hiq ▸ i.isLt
    have hieq : i = ⟨q, hq⟩ := Fin.ext hiq
    rw [hieq, ← h]
    simp [bval, hq]
  case isFalse => rfl

theorem bset_comm {n : Nat} {p q : Nat} (h : p ≠ q) (b b' : Bool) (s : QBasis n) :
    bset q b' (bset p b s) = bset p b (bset q b' s) := by
  funext i
  by_cases hip : (i : Nat) = p <;> by_cases hiq : (i : Nat) = q <;>
    simp_all [bset]

theorem all_bval_bset {n : Nat} (cs : List Nat) (t : Nat) (hts : t ∉ cs)
    (b : Bool) (s : QBasis n) :
    (cs.all fun c => bval c (bset t b s)) = cs.all fun c => bval c s := by
  induction cs with
  | nil => rfl
  | cons c cs ih =>
    have h1 : t ≠ c := fun h => hts (h ▸ List.mem_cons_self c cs)
    have h2 : t ∉ cs := fun h => hts (List.mem_cons_of_mem c h)
    simp only [List.all_cons, ih h2, bval_bset_ne c t (Ne.symm h1)]

/-! ## Gate-list action -/

@[simp] theorem applyGates_nil {n : Nat} (a : StateVec n) : applyGates [] a = a := rfl

@[simp] theorem applyGates_cons {n : Nat} (g : Gate) (gs : List Gate) (a : StateVec n) :
    applyGates (g :: gs) a = applyGates gs (applyGate g a) := rfl

theorem applyGates_append {n : Nat} (gs1 gs2 : List Gate) (a : StateVec n) :
    applyGates (gs1 ++ gs2) a = applyGates gs2 (applyGates gs1 a) := by
  simp [applyGates, List.foldl_append]

/-! ## The X layer -/

theorem flipOn_flipOn {n : Nat} (L : List Nat) (s : QBasis n) :
    flipOn L (flipOn L s) = s := by
  funext i
  by_cases hi : (i : Nat) ∈ L <;> simp [flipOn, hi]

@[simp] theorem flipOn_nil {n : Nat} (s : QBasis n) : flipOn [] s = s := by
  funext i
  simp [flipOn]

theorem bflip_flipOn {n : Nat} {q : Nat} {L : List Nat} (hq : q ∉ L) (s : QBasis n) :
    bflip q (flipOn L s) = flipOn (q :: L) s := by
  funext i
  by_cases hiq : (i : Nat) = q
  · have hiL : (i : Nat) ∉ L := hiq ▸ hq
    simp [bflip, flipOn, hiq, hiL, hq]
  · simp [bflip, flipOn, hiq]

theorem applyGates_xList {n : Nat} (L : List Nat) (hL : L.Nodup) (a : StateVec n) :
    applyGates (L.map Gate.x) a = fun s => a (flipOn L s) := by
  induction L generalizing a with
  | nil =>
    funext s
    simp
  | cons q L ih =>
    funext s
    rw [List.map_cons, applyGates_cons, ih (List.nodup_cons.mp hL).2]
    show a (bflip q (flipOn L s)) = a (flipOn (q :: L) s)
    rw [bflip_flipOn (List.nodup_cons.mp hL).1]

theorem xPos_cons_true (rest : List Bool) (i : Nat) :
    xPos (true :: rest) i = xPos rest (i + 1) := rfl

theorem xPos_cons_false (rest : List Bool) (i : Nat) :
    xPos (false :: rest) i = i :: xPos rest (i + 1) := rfl

theorem mem_xPos {s : List Bool} {i q : Nat} :
    q ∈ xPos s i ↔ ∃ j, j < s.length ∧ s[j]? = some false ∧ q = i + j := by
  induction s generalizing i with
  | nil => simp [xPos]
  | cons b rest ih =>
    cases b with
    | true =>
      rw [xPos_cons_true, ih]
      constructor
      · rintro ⟨j, hj, hget, rfl⟩
        exact ⟨j + 1, by simp; omega, by simpa using hget, by omega⟩
      · rintro ⟨j, hj, hget, rfl⟩
        match j with
        | 0 => simp at hget
        | j + 1 =>
          exact ⟨j, by simp at hj; omega, by simpa using hget, by omega⟩
    | false =>
      rw [xPos_cons_false]
      rw [List.mem_cons, ih]
      constructor
      · rintro (rfl | ⟨j, hj, hget, rfl⟩)
        · exact ⟨0, by simp, by simp, by omega⟩
        · exact ⟨j + 1, by simp; omega, by simpa using hget, by omega⟩
      · rintro ⟨j, hj, hget, rfl⟩
        match j with
        | 0 => exact Or.inl (by omega)
        | j + 1 =>
          exact Or.inr ⟨j, by simp at hj; omega, by simpa using hget, by omega⟩

theorem xPos_ge {s : List Bool} {i q : Nat} (h : q ∈ xPos s i) : i ≤ q := by
  obtain ⟨j, _, _, rfl⟩ := mem_xPos.mp h
  omega

theorem xPos_nodup (s : List Bool) (i : Nat) : (xPos s i).Nodup := by
  induction s generalizing i with
  | nil => simp [xPos]
  | cons b rest ih =>
    cases b with
    | true => rw [xPos_cons_true]; exact ih (i + 1)
    | false =>
      rw [xPos_cons_false, List.nodup_cons]
      exact ⟨fun h => by have := xPos_ge h; omega, ih (i + 1)⟩

theorem xLoop_cons_true (qubits : List Nat) (rest : List Bool) (i : Nat) :
    xLoop qubits (true :: rest) i = xLoop qubits rest (i + 1) := rfl

theorem xLoop_cons_false (qubits : List Nat) (rest : List Bool) (i : Nat) :
    xLoop qubits (false :: rest) i =
      match qubits[i]? with
      | none => none
      | some q => (xLoop qubits rest (i + 1)).map (fun gs => Gate.x q :: gs) := rfl

/-! ## The H / MCX / H block: a multi-controlled Z -/

theorem applyGates_mcz {n : Nat} (cs : List Nat) (t : Nat) (ht : t < n) (hcs : t ∉ cs)
    (a : StateVec n) :
    applyGates [Gate.h t, Gate.mcx cs t, Gate.h t] a
      = fun s => if ((cs.all fun c => bval c s) && bval t s) then -(a s) else a s := by
  funext s
  show applyGate (Gate.h t) (applyGate (Gate.mcx cs t) (applyGate (Gate.h t) a)) s = _
  cases hctrl : (cs.all fun c => bval c s) with
  | false =>
    cases hv : bval t s with
    | false =>
      simp only [applyGate, all_bval_bset cs t hcs, bval_bset_same ht, bflip_bset_same,
        bset_bset_same, hctrl, hv, Bool.not_false]
      simp only [bset_eq_self hv]
      simp
      linear_combination (a s) * Q2.invSqrt2_sq_two
    | true =>
      simp only [applyGate, all_bval_bset cs t hcs, bval_bset_same ht, bflip_bset_same,
        bset_bset_same, hctrl, hv, Bool.not_true]
      simp only [bset_eq_self hv]
      simp
      linear_combination (a s) * Q2.invSqrt2_sq_two
  | true =>
    cases hv : bval t s with
    | false =>
      simp only [applyGate, all_bval_bset cs t hcs, bval_bset_same ht, bflip_bset_same,
        bset_bset_same, hctrl, hv, Bool.not_false]
      simp only [bset_eq_self hv]
      simp
      linear_combination (a s) * Q2.invSqrt2_sq_two
    | true =>
      simp only [applyGate, all_bval_bset cs t hcs, bval_bset_same ht, bflip_bset_same,
        bset_bset_same, hctrl, hv, Bool.not_true]
      simp only [bset_eq_self hv]
      simp
      linear_combination (-(a s)) * Q2.invSqrt2_sq_two

/-- The MCZ block's Bool condition holds exactly at the all-ones state. -/
theorem mczCond_iff {n : Nat} (hn : 1 ≤ n) (u : QBasis n) :
    (((List.range (n - 1)).all fun c => bval c u) && bval (n - 1) u) = true ↔
      u = allT n := by
  rw [Bool.and_eq_true, List.all_eq_true]
  constructor
  · rintro ⟨hall, hlast⟩
    funext i
    by_cases hi : (i : Nat) < n - 1
    · have h := hall (i : Nat) (List.mem_range.mpr hi)
      rw [bval_fin] at h
      simpa [allT] using h
    · have hieq : (i : Nat) = n - 1 := by have := i.isLt; omega
      have h : bval (i : Nat) u = true := by rw [hieq]; exact hlast
      rw [bval_fin] at h
      simpa [allT] using h
  · rintro rfl
    refine ⟨fun c hc => ?_, ?_⟩
    · have hc' : c < n := by have := List.mem_range.mp hc; omega
      simp [bval, hc', allT]
    · have h : n - 1 < n := by omega
      simp [bval, h, allT]

/-! ## The binary encoding -/

theorem binFormat_length (t w : Nat) :
    (binFormat t w).length = max w (max 1 t.size) := by
  simp [binFormat]

theorem binFormat_length_of_lt {t w : Nat} (hw : 1 ≤ w) (ht : t < 2 ^ w) :
    (binFormat t w).length = w := by
  have hs : t.size ≤ w := Nat.size_le.mpr ht
  rw [binFormat_length]
  omega

theorem binFormat_getElem? {t w i : Nat} (hw : 1 ≤ w) (ht : t < 2 ^ w) (hi : i < w) :
    (binFormat t w)[i]? = some (t.testBit (w - 1 - i)) := by
  have hs : t.size ≤ w := Nat.size_le.mpr ht
  have hlen : max w (max 1 t.size) = w := by omega
  simp [binFormat, hlen, List.getElem?_range, hi]

theorem flipOn_xPos_point {n t : Nat} (hn : 1 ≤ n) (ht : t < 2 ^ n) (s : QBasis n)
    (i : Fin n) :
    flipOn (xPos (binFormat t n) 0) s i
      = if t.testBit (n - 1 - (i : Nat)) then s i else !(s i) := by
  unfold flipOn
  by_cases hmem : (i : Nat) ∈ xPos (binFormat t n) 0
  · obtain ⟨j, hj, hget, hij⟩ := mem_xPos.mp hmem
    have hji : j = (i : Nat) := by omega
    subst hji
    rw [binFormat_getElem? hn ht i.isLt] at hget
    have hbit : t.testBit (n - 1 - (i : Nat)) = false := by simpa using hget
    rw [if_pos hmem, hbit]
    simp
  · rw [if_neg hmem]
    have hbit : t.testBit (n - 1 - (i : Nat)) = true := by
      by_contra hb
      have hbit' : t.testBit (n - 1 - (i : Nat)) = false := by
        simpa using hb
      exact hmem (mem_xPos.mpr ⟨(i : Nat),
        by rw [binFormat_length_of_lt hn ht]; exact i.isLt,
        by rw [binFormat_getElem? hn ht i.isLt, hbit'], by omega⟩)
    rw [hbit]
    simp

theorem flipOn_xPos_allT_iff {n t : Nat} (hn : 1 ≤ n) (ht : t < 2 ^ n) (s : QBasis n) :
    flipOn (xPos (binFormat t n) 0) s = allT n ↔ s = tEnc n t := by
  constructor
  · intro h
    funext i
    have hpt := congrFun h i
    rw [flipOn_xPos_point hn ht] at hpt
    show s i = tEnc n t i
    unfold tEnc
    cases hbit : t.testBit (n - 1 - (i : Nat)) with
    | true => rw [hbit] at hpt; simpa [allT] using hpt
    | false => rw [hbit] at hpt; simpa [allT] using hpt
  · rintro rfl
    funext i
    rw [flipOn_xPos_point hn ht]
    show _ = allT n i
    unfold tEnc allT
    cases hbit : t.testBit (n - 1 - (i : Nat)) <;> simp [hbit]

theorem flipOn_range_allT_iff {n : Nat} (s : QBasis n) :
    flipOn (List.range n) s = allT n ↔ s = allF n := by
  constructor
  · intro h
    funext i
    have hpt := congrFun h i
    simp [flipOn, List.mem_range, i.isLt, allT] at hpt
    simp [allF, hpt]
  · rintro rfl
    funext i
    simp [flipOn, List.mem_range, i.isLt, allT, allF]

theorem xLoop_range_eq {n : Nat} (s : List Bool) (i : Nat) (h : i + s.length ≤ n) :
    xLoop (List.range n) s i = some ((xPos s i).map Gate.x) := by
  induction s generalizing i with
  | nil => rfl
  | cons b rest ih =>
    have hi : i < n := by simp at h; omega
    have hnext : i + 1 + rest.length ≤ n := by simp at h; omega
    cases b with
    | true => rw [xLoop_cons_true, xPos_cons_true, ih (i + 1) hnext]
    | false =>
      have hlook : (List.range n)[i]? = some i := by
        simp [List.getElem?_range, hi]
      rw [xLoop_cons_false, hlook, xPos_cons_false, ih (i + 1) hnext]
      rfl

/-! ## The conjugated phase flip: X layer, H / MCX / H, X layer -/

theorem applyGates_conj {n : Nat} (L : List Nat) (hnd : L.Nodup) (hn : 1 ≤ n)
    (a : StateVec n) :
    applyGates (L.map Gate.x ++
        ([Gate.h (n - 1), Gate.mcx (List.range (n - 1)) (n - 1), Gate.h (n - 1)] ++
          L.map Gate.x)) a
      = fun s => if flipOn L s = allT n then -(a s) else a s := by
  rw [applyGates_append, applyGates_append,
    applyGates_xList L hnd a,
    applyGates_mcz (List.range (n - 1)) (n - 1) (by omega) (by simp)
      (fun s => a (flipOn L s)),
    applyGates_xList L hnd
      (fun s => if (((List.range (n - 1)).all fun c => bval c s) && bval (n - 1) s)
        then -(a (flipOn L s)) else a (flipOn L s))]
  funext s
  simp only [flipOn_flipOn]
  exact if_congr (mczCond_iff hn (flipOn L s)) rfl rfl

theorem range_getLast? {n : Nat} (hn : 1 ≤ n) :
    (List.range n).getLast? = some (n - 1) := by
  obtain ⟨m, rfl⟩ : ∃ m, n = m + 1 := ⟨n - 1, by omega⟩
  rw [List.range_succ]
  simp

theorem range_dropLast {n : Nat} (hn : 1 ≤ n) :
    (List.range n).dropLast = List.range (n - 1) := by
  obtain ⟨m, rfl⟩ : ∃ m, n = m + 1 := ⟨n - 1, by omega⟩
  rw [List.range_succ]
  simp

theorem oracle_range_eq {n t : Nat} (hn : 1 ≤ n) (ht : t < 2 ^ n) (c : Circuit) :
    oracle c (List.range n) t = some ⟨c.nq, c.nc, c.gates ++ oracleGates n t⟩ := by
  have hx : xLoop (List.range n) (binFormat t n) 0
      = some ((xPos (binFormat t n) 0).map Gate.x) := by
    apply xLoop_range_eq
    rw [binFormat_length_of_lt hn ht]
    omega
  simp [oracle, List.length_range, hx, range_getLast? hn, range_dropLast hn,
    oracleGates, List.append_assoc]

theorem oracleGates_action {n t : Nat} (hn : 1 ≤ n) (ht : t < 2 ^ n) (a : StateVec n) :
    applyGates (oracleGates n t) a
      = fun s => if s = tEnc n t then -(a s) else a s := by
  unfold oracleGates
  rw [applyGates_conj _ (xPos_nodup _ _) hn]
  funext s
  exact if_congr (flipOn_xPos_allT_iff hn ht s) rfl rfl

theorem diffuser_range_eq {n : Nat} (hn : 1 ≤ n) (c : Circuit) :
    diffuser c (List.range n) = some ⟨c.nq, c.nc, c.gates ++ diffuserGates n⟩ := by
  simp [diffuser, range_getLast? hn, range_dropLast hn, diffuserGates,
    List.append_assoc]

/-! ## The Hadamard layer -/

theorem applyGate_h_h {n : Nat} {q : Nat} (hq : q < n) (a : StateVec n) :
    applyGate (Gate.h q) (applyGate (Gate.h q) a) = a := by
  funext s
  cases hv : bval q s with
  | false =>
    simp only [applyGate, bval_bset_same hq, bset_bset_same, hv, Bool.not_false]
    simp only [bset_eq_self hv]
    simp
    linear_combination (a s) * Q2.invSqrt2_sq_two
  | true =>
    simp only [applyGate, bval_bset_same hq, bset_bset_same, hv, Bool.not_true]
    simp only [bset_eq_self hv]
    simp
    linear_combination (a s) * Q2.invSqrt2_sq_two

theorem applyGate_h_comm {n : Nat} (p q : Nat) (hpq : p ≠ q) (a : StateVec n) :
    applyGate (Gate.h p) (applyGate (Gate.h q) a)
      = applyGate (Gate.h q) (applyGate (Gate.h p) a) := by
  funext s
  simp only [applyGate, bval_bset_ne q p (Ne.symm hpq), bval_bset_ne p q hpq]
  cases hp : bval p s <;> cases hq : bval q s <;>
    simp [hp, hq] <;>
    · simp only [bset_comm hpq]
      ring

theorem applyGates_hList_comm {n : Nat} (L : List Nat) (q : Nat) (hq : q ∉ L)
    (a : StateVec n) :
    applyGates (L.map Gate.h) (applyGate (Gate.h q) a)
      = applyGate (Gate.h q) (applyGates (L.map Gate.h) a) := by
  induction L generalizing a with
  | nil => rfl
  | cons p L ih =>
    have hpq : p ≠ q := fun h => hq (h ▸ List.mem_cons_self p L)
    have hq' : q ∉ L := fun h => hq (List.mem_cons_of_mem p h)
    rw [List.map_cons, applyGates_cons, applyGates_cons]
    rw [applyGate_h_comm p q hpq]
    exact ih hq' (applyGate (Gate.h p) a)

theorem applyGates_hList_hList {n : Nat} (L : List Nat) (hnd : L.Nodup)
    (hlt : ∀ q ∈ L, q < n) (a : StateVec n) :
    applyGates (L.map Gate.h) (applyGates (L.map Gate.h) a) = a := by
  induction L generalizing a with
  | nil => rfl
  | cons q L ih =>
    rw [List.map_cons, applyGates_cons, applyGates_cons]
    rw [applyGates_hList_comm L q (List.nodup_cons.mp hnd).1]
    rw [ih (List.nodup_cons.mp hnd).2
      (fun p hp => hlt p (List.mem_cons_of_mem q hp))]
    exact applyGate_h_h (hlt q (List.mem_cons_self q L)) a

theorem applyGate_h_linear {n : Nat} (q : Nat) (f g : StateVec n) (r : Q2) :
    applyGate (Gate.h q) (fun s => f s + r * g s)
      = fun s => applyGate (Gate.h q) f s + r * applyGate (Gate.h q) g s := by
  funext s
  simp only [applyGate]
  cases hv : bval q s <;> simp [hv] <;> ring

theorem applyGates_hList_linear {n : Nat} (L : List Nat) (f g : StateVec n) (r : Q2) :
    applyGates (L.map Gate.h) (fun s => f s + r * g s)
      = fun s => applyGates (L.map Gate.h) f s + r * applyGates (L.map Gate.h) g s := by
  induction L generalizing f g with
  | nil => rfl
  | cons q L ih =>
    rw [List.map_cons, applyGates_cons, applyGate_h_linear]
    rw [ih (applyGate (Gate.h q) f) (applyGate (Gate.h q) g)]
    rfl

theorem applyGates_hList_deltaF {n : Nat} (L : List Nat) (hnd : L.Nodup)
    (hlt : ∀ q ∈ L, q < n) :
    applyGates (L.map Gate.h) (deltaF n)
      = fun s => if (∀ i : Fin n, (i : Nat) ∉ L → s i = false)
          then Q2.invSqrt2 ^ L.length else 0 := by
  induction L with
  | nil =>
    funext s
    simp only [List.map_nil, applyGates_nil, deltaF, List.length_nil, pow_zero]
    apply if_congr _ rfl rfl
    constructor
    · rintro rfl i _
      rfl
    · intro h
      funext i
      exact h i (by simp)
  | cons q L ih =>
    have hq : q ∉ L := (List.nodup_cons.mp hnd).1
    have hqn : q < n := hlt q (List.mem_cons_self q L)
    have hnd' := (List.nodup_cons.mp hnd).2
    have hlt' : ∀ p ∈ L, p < n := fun p hp => hlt p (List.mem_cons_of_mem q hp)
    rw [List.map_cons, applyGates_cons, applyGates_hList_comm L q hq, ih hnd' hlt']
    funext s
    simp only [applyGate]
    have h2 : ¬(∀ i : Fin n, (i : Nat) ∉ L → bset q true s i = false) := by
      intro h
      have := h ⟨q, hqn⟩ (by simpa using hq)
      simp [bset] at this
    have h1 : (∀ i : Fin n, (i : Nat) ∉ L → bset q false s i = false)
        ↔ (∀ i : Fin n, (i : Nat) ∉ q :: L → s i = false) := by
      constructor
      · intro h i hi
        have hiL : (i : Nat) ∉ L := fun hh => hi (List.mem_cons_of_mem q hh)
        have hiq : (i : Nat) ≠ q := fun hh => hi (hh ▸ List.mem_cons_self q L)
        have := h i hiL
        simpa [bset, hiq] using this
      · intro h i hiL
        by_cases hiq : (i : Nat) = q
        · simp [bset, hiq]
        · have hs : s i = false := h i (by simp [hiq, hiL])
          simp [bset, hiq, hs]
    rw [if_neg h2]
    simp only [neg_zero, ite_self, add_zero]
    rw [if_congr h1 rfl rfl, mul_ite, mul_zero]
    simp [List.length_cons, pow_succ, mul_comm]

theorem applyGates_hList_sum {n : Nat} (L : List Nat) (hnd : L.Nodup)
    (hlt : ∀ q ∈ L, q < n) (a : StateVec n) (s : QBasis n)
    (hs : ∀ i : Fin n, (i : Nat) ∈ L → s i = false) :
    applyGates (L.map Gate.h) a s
      = Q2.invSqrt2 ^ L.length *
          ∑ u : QBasis n,
            if (∀ i : Fin n, (i : Nat) ∉ L → u i = s i) then a u else 0 := by
  induction L generalizing a s with
  | nil =>
    simp only [List.map_nil, applyGates_nil, List.length_nil, pow_zero, one_mul]
    have hiff : ∀ u : QBasis n,
        ((∀ i : Fin n, (i : Nat) ∉ ([] : List Nat) → u i = s i) ↔ u = s) := by
      intro u
      constructor
      · intro h
        funext i
        exact h i (by simp)
      · rintro rfl i _
        rfl
    rw [Finset.sum_congr rfl (fun u _ => if_congr (hiff u) rfl rfl)]
    rw [Finset.sum_ite_eq' Finset.univ s a]
    simp
  | cons q L ih =>
    have hq : q ∉ L := (List.nodup_cons.mp hnd).1
    have hqn : q < n := hlt q (List.mem_cons_self q L)
    have hnd' := (List.nodup_cons.mp hnd).2
    have hlt' : ∀ p ∈ L, p < n := fun p hp => hlt p (List.mem_cons_of_mem q hp)
    have hsq : s ⟨q, hqn⟩ = false := hs ⟨q, hqn⟩ (by simp)
    have hbv : bval q s = false := by simp [bval, hqn, hsq]
    rw [List.map_cons, applyGates_cons, applyGates_hList_comm L q hq]
    simp only [applyGate, hbv, Bool.false_eq_true, if_false]
    rw [bset_eq_self hbv]
    rw [ih hnd' hlt' a s (fun i hi => hs i (List.mem_cons_of_mem q hi))]
    have hs1 : ∀ i : Fin n, (i : Nat) ∈ L → bset q true s i = false := by
      intro i hi
      have hiq : (i : Nat) ≠ q := fun hh => hq (hh ▸ hi)
      have := hs i (List.mem_cons_of_mem q hi)
      simp [bset, hiq, this]
    rw [ih hnd' hlt' a (bset q true s) hs1]
    have e0 : ∀ u : QBasis n,
        ((∀ i : Fin n, (i : Nat) ∉ L → u i = s i)
          ↔ ((∀ i : Fin n, (i : Nat) ∉ q :: L → u i = s i) ∧ u ⟨q, hqn⟩ = false)) := by
      intro u
      constructor
      · intro h
        refine ⟨fun i hi => h i (fun hh => hi (List.mem_cons_of_mem q hh)), ?_⟩
        rw [h ⟨q, hqn⟩ (by simpa using hq)]
        exact hsq
      · rintro ⟨hP, hq0⟩ i hiL
        by_cases hiq : (i : Nat) = q
        · have hieq : i = ⟨q, hqn⟩ := Fin.ext hiq
          rw [hieq, hq0]
          exact hsq.symm
        · exact hP i (by simp [hiq, hiL])
    have e1 : ∀ u : QBasis n,
        ((∀ i : Fin n, (i : Nat) ∉ L → u i = bset q true s i)
          ↔ ((∀ i : Fin n, (i : Nat) ∉ q :: L → u i = s i) ∧ u ⟨q, hqn⟩ = true)) := by
      intro u
      constructor
      · intro h
        constructor
        · intro i hi
          have hiq : (i : Nat) ≠ q := fun hh => hi (by simp [hh])
          have := h i (fun hh => hi (List.mem_cons_of_mem q hh))
          simpa [bset, hiq] using this
        · have := h ⟨q, hqn⟩ (by simpa using hq)
          simpa [bset] using this
      · rintro ⟨hP, hq1⟩ i hiL
        by_cases hiq : (i : Nat) = q
        · have hieq : i = ⟨q, hqn⟩ := Fin.ext hiq
          rw [hieq, hq1]
          simp [bset, hiq]
        · rw [hP i (by simp [hiq, hiL])]
          simp [bset, hiq]
    have hsplit :
        (∑ u : QBasis n,
            if (∀ i : Fin n, (i : Nat) ∉ L → u i = s i) then a u else 0)
          + (∑ u : QBasis n,
              if (∀ i : Fin n, (i : Nat) ∉ L → u i = bset q true s i) then a u else 0)
        = ∑ u : QBasis n,
            if (∀ i : Fin n, (i : Nat) ∉ q :: L → u i = s i) then a u else 0 := by
      rw [← Finset.sum_add_distrib]
      apply Finset.sum_congr rfl
      intro u _
      rw [if_congr (e0 u) rfl rfl, if_congr (e1 u) rfl rfl]
      by_cases hP : ∀ i : Fin n, (i : Nat) ∉ q :: L → u i = s i
      · cases huq : u ⟨q, hqn⟩ with
        | false =>
          rw [if_pos ⟨hP, rfl⟩, if_neg (fun h => by simpa using h.2),
            if_pos hP, add_zero]
        | true =>
          rw [if_neg (fun h => by simpa using h.2), if_pos ⟨hP, rfl⟩,
            if_pos hP, zero_add]
      · rw [if_neg (fun h => hP h.1), if_neg (fun h => hP h.1), if_neg hP, add_zero]
    rw [← hsplit, List.length_cons, pow_succ]
    ring

theorem Q2.ofRat_pow (q : ℚ) (n : ℕ) : Q2.ofRat q ^ n = Q2.ofRat (q ^ n) := by
  induction n with
  | zero => simp
  | succ m ih => rw [pow_succ, pow_succ, ih, Q2.ofRat_mul]

theorem Q2.two_pow_mul_ofRat (n : ℕ) : (2 : Q2) ^ n * Q2.ofRat (1 / 2 ^ n) = 1 := by
  have h2 : (2 : Q2) = Q2.ofRat 2 := by
    apply Q2.ext2 <;> simp [Q2.ofRat]
  rw [h2, Q2.ofRat_pow, Q2.ofRat_mul]
  have hq : (2 : ℚ) ^ n * (1 / 2 ^ n) = 1 := by
    field_simp
  rw [hq, Q2.ofRat_one]

/-! ## Diffuser semantics -/

theorem diffuserGates_action {n : Nat} (hn : 1 ≤ n) (a : StateVec n) :
    applyGates (diffuserGates n) a = fun s => a s - 2 * meanAmp n a := by
  have hnd : (List.range n).Nodup := List.nodup_range n
  have hlt : ∀ q ∈ List.range n, q < n := fun q hq => List.mem_range.mp hq
  have hvac : ∀ s : QBasis n, ∀ i : Fin n, (i : Nat) ∉ List.range n → s i = false :=
    fun s i hi => absurd (List.mem_range.mpr i.isLt) hi
  have hdelta : applyGates ((List.range n).map Gate.h) (deltaF n)
      = fun t => Q2.invSqrt2 ^ n := by
    rw [applyGates_hList_deltaF _ hnd hlt]
    funext t
    rw [if_pos (hvac t), List.length_range]
  have hb0 : applyGates ((List.range n).map Gate.h) a (allF n)
      = Q2.invSqrt2 ^ n * sumAmp n a := by
    rw [applyGates_hList_sum (List.range n) hnd hlt a (allF n) (fun i _ => rfl),
      List.length_range]
    congr 1
    rw [sumAmp]
    apply Finset.sum_congr rfl
    intro u _
    have hc : ∀ i : Fin n, (i : Nat) ∉ List.range n → u i = allF n i :=
      fun i hi => absurd (List.mem_range.mpr i.isLt) hi
    rw [if_pos hc]
  unfold diffuserGates
  rw [applyGates_append, applyGates_append]
  rw [applyGates_conj (List.range n) hnd hn]
  have hmid : (fun s => if flipOn (List.range n) s = allT n
        then -(applyGates ((List.range n).map Gate.h) a s)
        else applyGates ((List.range n).map Gate.h) a s)
      = fun s => applyGates ((List.range n).map Gate.h) a s
          + (-2 * applyGates ((List.range n).map Gate.h) a (allF n)) * deltaF n s := by
    funext s
    rw [if_congr (flipOn_range_allT_iff s) rfl rfl]
    by_cases hs : s = allF n
    · subst hs
      simp [deltaF]
      ring
    · simp [deltaF, hs]
  rw [hmid]
  rw [applyGates_hList_linear]
  rw [applyGates_hList_hList _ hnd hlt]
  rw [hdelta, hb0]
  funext s
  show a s + -2 * (Q2.invSqrt2 ^ n * sumAmp n a) * Q2.invSqrt2 ^ n
      = a s - 2 * meanAmp n a
  rw [meanAmp]
  have hpow : Q2.invSqrt2 ^ n * Q2.invSqrt2 ^ n = Q2.ofRat (1 / 2 ^ n) := by
    rw [← mul_pow, Q2.invSqrt2_mul_invSqrt2, Q2.ofRat_pow, div_pow, one_pow]
  linear_combination (-2 * sumAmp n a) * hpow

theorem card_qbasis (n : Nat) : Fintype.card (QBasis n) = 2 ^ n := by
  rw [Fintype.card_fun, Fintype.card_bool, Fintype.card_fin]

theorem sumAmp_diffused {n : Nat} (a : StateVec n) :
    sumAmp n (fun s => a s - 2 * meanAmp n a) = -(sumAmp n a) := by
  show (∑ s : QBasis n, (a s - 2 * meanAmp n a)) = -(∑ s : QBasis n, a s)
  rw [Finset.sum_sub_distrib, Finset.sum_const, Finset.card_univ, card_qbasis,
    nsmul_eq_mul]
  have hcast : ((2 ^ n : ℕ) : Q2) = (2 : Q2) ^ n := by push_cast; ring
  rw [hcast]
  unfold meanAmp sumAmp
  linear_combination (-2 * ∑ s : QBasis n, a s) * Q2.two_pow_mul_ofRat n

theorem diffuserGates_twice {n : Nat} (hn : 1 ≤ n) (a : StateVec n) :
    applyGates (diffuserGates n ++ diffuserGates n) a = a := by
  rw [applyGates_append, diffuserGates_action hn, diffuserGates_action hn]
  funext s
  have hm : meanAmp n (fun s => a s - 2 * meanAmp n a) = -(meanAmp n a) := by
    show Q2.ofRat (1 / 2 ^ n) * sumAmp n (fun s => a s - 2 * meanAmp n a)
        = -(Q2.ofRat (1 / 2 ^ n) * sumAmp n a)
    rw [sumAmp_diffused]
    ring
  show (a s - 2 * meanAmp n a) - 2 * meanAmp n (fun s => a s - 2 * meanAmp n a) = a s
  rw [hm]
  ring

/-! ## Failure and frame characterisation of the builders -/

theorem binFormat_length_gt {t n : Nat} (ht : 2 ^ n ≤ t) :
    n < (binFormat t n).length := by
  rw [binFormat_length]
  have hsz : n < t.size := Nat.lt_size.mpr ht
  omega

theorem xLoop_eq_none_iff (qubits : List Nat) (s : List Bool) (i : Nat) :
    xLoop qubits s i = none
      ↔ ∃ j, j < s.length ∧ s[j]? = some false ∧ qubits.length ≤ i + j := by
  induction s generalizing i with
  | nil => simp [xLoop]
  | cons b rest ih =>
    cases b with
    | true =>
      rw [xLoop_cons_true, ih]
      constructor
      · rintro ⟨j, hj, hget, hlen⟩
        exact ⟨j + 1, by simp; omega, by simpa using hget, by omega⟩
      · rintro ⟨j, hj, hget, hlen⟩
        match j with
        | 0 => simp at hget
        | j + 1 => exact ⟨j, by simp at hj; omega, by simpa using hget, by omega⟩
    | false =>
      rw [xLoop_cons_false]
      cases hlook : qubits[i]? with
      | none =>
        have hlen : qubits.length ≤ i := by
          by_contra hcon
          rw [List.getElem?_eq_getElem (by omega)] at hlook
          exact Option.noConfusion hlook
        simp only []
        constructor
        · intro _
          exact ⟨0, by simp, by simp, by omega⟩
        · intro _
          trivial
      | some q =>
        have hilen : i < qubits.length := by
          by_contra hcon
          rw [List.getElem?_eq_none (by omega)] at hlook
          exact Option.noConfusion hlook
        simp only [Option.map_eq_none', ih]
        constructor
        · rintro ⟨j, hj, hget, hlen⟩
          exact ⟨j + 1, by simp; omega, by simpa using hget, by omega⟩
        · rintro ⟨j, hj, hget, hlen⟩
          match j with
          | 0 => omega
          | j + 1 => exact ⟨j, by simp at hj; omega, by simpa using hget, by omega⟩

theorem oracle_eq_none_iff {n : Nat} (t : Nat) (hn : 1 ≤ n) (c : Circuit) :
    oracle c (List.range n) t = none
      ↔ ∃ j, j < (binFormat t n).length ∧ (binFormat t n)[j]? = some false ∧ n ≤ j := by
  have hx := xLoop_eq_none_iff (List.range n) (binFormat t n) 0
  rw [List.length_range] at hx
  simp only [zero_add] at hx
  cases hxe : xLoop (List.range n) (binFormat t n) 0 with
  | none =>
    have hres : oracle c (List.range n) t = none := by
      simp [oracle, List.length_range, hxe]
    rw [hres]
    simpa using hx.mp hxe
  | some gs =>
    have hres : oracle c (List.range n) t ≠ none := by
      simp [oracle, List.length_range, hxe, range_getLast? hn]
    constructor
    · intro h
      exact absurd h hres
    · intro hex
      have := hx.mpr hex
      rw [hxe] at this
      exact Option.noConfusion this

theorem xLoop_of_inbounds (qubits : List Nat) (s : List Bool) (i : Nat)
    (h : i + s.length ≤ qubits.length) :
    ∃ gs, xLoop qubits s i = some gs ∧ ∀ g ∈ gs, ∃ q, g = Gate.x q := by
  induction s generalizing i with
  | nil => exact ⟨[], rfl, by simp⟩
  | cons b rest ih =>
    have hnext : i + 1 + rest.length ≤ qubits.length := by simp at h; omega
    cases b with
    | true =>
      obtain ⟨gs, hgs, hx⟩ := ih (i + 1) hnext
      exact ⟨gs, by rw [xLoop_cons_true]; exact hgs, hx⟩
    | false =>
      have hi : i < qubits.length := by simp at h; omega
      have hq : qubits[i]? = some qubits[i] := List.getElem?_eq_getElem hi
      obtain ⟨gs, hgs, hx⟩ := ih (i + 1) hnext
      refine ⟨Gate.x qubits[i] :: gs, ?_, ?_⟩
      · rw [xLoop_cons_false, hq, hgs]
        rfl
      · intro g hg
        rcases List.mem_cons.mp hg with rfl | hg'
        · exact ⟨qubits[i], rfl⟩
        · exact hx g hg'

theorem oracle_frame {t : Nat} (c : Circuit) (qubits : List Nat) (hne : qubits ≠ [])
    (ht : t < 2 ^ qubits.length) :
    ∃ gs, oracle c qubits t = some ⟨c.nq, c.nc, c.gates ++ gs⟩ ∧
      ∀ g ∈ gs, g.isMeasure = false := by
  have hw : 1 ≤ qubits.length := by
    cases qubits with
    | nil => exact absurd rfl hne
    | cons p rest => simp
  have hlen : (binFormat t qubits.length).length = qubits.length :=
    binFormat_length_of_lt hw ht
  obtain ⟨gs1, hgs1, hx1⟩ := xLoop_of_inbounds qubits (binFormat t qubits.length) 0
    (by omega)
  obtain ⟨last, hlast⟩ : ∃ q, qubits.getLast? = some q := by
    cases hl : qubits.getLast? with
    | none => exact absurd (List.getLast?_eq_none_iff.mp hl) hne
    | some q => exact ⟨q, rfl⟩
  refine ⟨gs1 ++ ([Gate.h last, Gate.mcx qubits.dropLast last, Gate.h last] ++ gs1),
    ?_, ?_⟩
  · simp [oracle, hgs1, hlast, List.append_assoc]
  · intro g hg
    rcases List.mem_append.mp hg with hg1 | hg2
    · obtain ⟨q, rfl⟩ := hx1 g hg1
      rfl
    · rcases List.mem_append.mp hg2 with hg3 | hg4
      · simp only [List.mem_cons, List.not_mem_nil, or_false] at hg3
        rcases hg3 with rfl | rfl | rfl <;> rfl
      · obtain ⟨q, rfl⟩ := hx1 g hg4
        rfl

theorem diffuser_frame (c : Circuit) (qubits : List Nat) (hne : qubits ≠ []) :
    ∃ gs, diffuser c qubits = some ⟨c.nq, c.nc, c.gates ++ gs⟩ ∧
      ∀ g ∈ gs, g.isMeasure = false := by
  obtain ⟨last, hlast⟩ : ∃ q, qubits.getLast? = some q := by
    cases hl : qubits.getLast? with
    | none => exact absurd (List.getLast?_eq_none_iff.mp hl) hne
    | some q => exact ⟨q, rfl⟩
  refine ⟨qubits.map Gate.h ++ (qubits.map Gate.x ++
      ([Gate.h last, Gate.mcx qubits.dropLast last, Gate.h last] ++
        (qubits.map Gate.x ++ qubits.map Gate.h))), ?_, ?_⟩
  · simp [diffuser, hlast, List.append_assoc]
  · intro g hg
    rcases List.mem_append.mp hg with hg1 | hg2
    · obtain ⟨q, -, rfl⟩ := List.mem_map.mp hg1
      rfl
    · rcases List.mem_append.mp hg2 with hg3 | hg4
      · rcases List.mem_map.mp hg3 with ⟨q, -, rfl⟩
        rfl
      · rcases List.mem_append.mp hg4 with hg5 | hg6
        · simp only [List.mem_cons, List.not_mem_nil, or_false] at hg5
          rcases hg5 with rfl | rfl | rfl <;> rfl
        · rcases List.mem_append.mp hg6 with hg7 | hg8
          · rcases List.mem_map.mp hg7 with ⟨q, -, rfl⟩
            rfl
          · rcases List.mem_map.mp hg8 with ⟨q, -, rfl⟩
            rfl

/-! ## Shape of the driver's circuit -/

theorem groverLoop_eq {n t : Nat} (hn : 1 ≤ n) (ht : t < 2 ^ n) (k : Nat) :
    ∀ qc : Circuit, groverLoop qc n t k
      = some ⟨qc.nq, qc.nc,
          qc.gates ++ (List.replicate k (oracleGates n t ++ diffuserGates n)).flatten⟩ := by
  induction k with
  | zero =>
    intro qc
    simp [groverLoop]
  | succ k ih =>
    intro qc
    simp only [groverLoop, oracle_range_eq hn ht, diffuser_range_eq hn, ih]
    simp [List.replicate_succ, List.append_assoc]

theorem grover_search_eq {n t iters : Nat} (hn : 1 ≤ n) (ht : t < 2 ^ n)
    (hit : num_iterations n = some iters) :
    grover_search t n
      = some ⟨n, n,
          (List.range n).map Gate.h ++
            (List.replicate iters (oracleGates n t ++ diffuserGates n)).flatten ++
            (List.range n).map (fun i => Gate.measure i i)⟩ := by
  simp only [grover_search, hit]
  rw [groverLoop_eq hn ht]
  simp [List.append_assoc]

/-! ## The double-precision iteration count -/

theorem sqrt_pow_div (n j : Nat) :
    Nat.sqrt (2 ^ (n + 2 * j)) / 2 ^ j = Nat.sqrt (2 ^ n) := by
  have hP : 0 < (2 : ℕ) ^ j := pow_pos (by norm_num) j
  set F := Nat.sqrt (2 ^ (n + 2 * j)) with hF
  set q := F / 2 ^ j with hq
  have h1 : q * 2 ^ j ≤ F := Nat.div_mul_le_self F (2 ^ j)
  have h2 : F < (q + 1) * 2 ^ j := (Nat.div_lt_iff_lt_mul hP).mp (Nat.lt_succ_self q)
  have hF1 : F * F ≤ 2 ^ (n + 2 * j) := Nat.sqrt_le (2 ^ (n + 2 * j))
  have hF2 : 2 ^ (n + 2 * j) < (F + 1) * (F + 1) := Nat.lt_succ_sqrt (2 ^ (n + 2 * j))
  have hsplit : (2 : ℕ) ^ (n + 2 * j) = 2 ^ n * (2 ^ j * 2 ^ j) := by
    rw [← pow_add, ← pow_add]
    congr 1
    omega
  rw [Nat.eq_sqrt]
  constructor
  · have hmul : (q * 2 ^ j) * (q * 2 ^ j) ≤ 2 ^ n * (2 ^ j * 2 ^ j) := by
      rw [← hsplit]
      exact le_trans (Nat.mul_le_mul h1 h1) hF1
    have hre : (q * 2 ^ j) * (q * 2 ^ j) = (q * q) * (2 ^ j * 2 ^ j) := by ring
    rw [hre] at hmul
    exact Nat.le_of_mul_le_mul_right hmul (by positivity)
  · have hle : F + 1 ≤ (q + 1) * 2 ^ j := h2
    have hmul : 2 ^ n * (2 ^ j * 2 ^ j) < ((q + 1) * 2 ^ j) * ((q + 1) * 2 ^ j) := by
      rw [← hsplit]
      exact lt_of_lt_of_le hF2 (Nat.mul_le_mul hle hle)
    have hre : ((q + 1) * 2 ^ j) * ((q + 1) * 2 ^ j)
        = ((q + 1) * (q + 1)) * (2 ^ j * 2 ^ j) := by ring
    rw [hre] at hmul
    exact lt_of_mul_lt_mul_right hmul (Nat.zero_le _)

set_option maxRecDepth 10000 in
theorem sqrt_two_pow_105 : Nat.sqrt (2 ^ 105) = 6369051672525772 := by
  symm
  rw [Nat.eq_sqrt]
  constructor <;> norm_num

set_option maxRecDepth 10000 in
theorem sqrt2Sig_eq : sqrt2Sig = 6369051672525773 := by
  unfold sqrt2Sig
  rw [sqrt_two_pow_105]
  norm_num

theorem num_iterations_overflow {n : Nat} (hn : 1024 ≤ n) :
    num_iterations n = none := by
  unfold num_iterations
  rw [if_pos hn]

/-- For every register size up to 104 the double-precision count agrees with
the exact integer square root; the first divergence is at 105. -/
theorem num_iterations_eq_sqrt {n : Nat} (hn : n ≤ 104) :
    num_iterations n = some (Nat.sqrt (2 ^ n)) := by
  unfold num_iterations
  rw [if_neg (by omega)]
  rcases Nat.even_or_odd n with he | ho
  · obtain ⟨j, rfl⟩ := he
    rw [if_pos (by omega)]
    refine congrArg some ?_
    have hdiv : (j + j) / 2 = j := by omega
    rw [hdiv]
    rw [Nat.eq_sqrt]
    have hjj : (2 : ℕ) ^ j * 2 ^ j = 2 ^ (j + j) := by rw [← pow_add]
    constructor
    · rw [hjj]
    · nlinarith [pow_pos (show (0 : ℕ) < 2 by norm_num) j]
  · obtain ⟨k, rfl⟩ := ho
    rw [if_neg (by omega)]
    refine congrArg some ?_
    have hdiv : (2 * k + 1) / 2 = k := by omega
    rw [hdiv, sqrt2Sig_eq]
    have hsplit : (2 : ℕ) ^ 52 = 2 ^ (52 - k) * 2 ^ k := by
      rw [← pow_add]
      congr 1
      omega
    have hk : 0 < (2 : ℕ) ^ k := pow_pos (by norm_num) k
    rw [hsplit, Nat.mul_div_mul_right _ _ hk]
    have hodd : ¬ ((2 : ℕ) ^ (52 - k) ∣ 6369051672525772 + 1) := by
      intro hdvd
      have h2 : (2 : ℕ) ∣ 2 ^ (52 - k) := dvd_pow_self 2 (by omega)
      have h3 := h2.trans hdvd
      norm_num at h3
    have hsucc : (6369051672525772 + 1) / (2 : ℕ) ^ (52 - k)
        = 6369051672525772 / 2 ^ (52 - k) := Nat.succ_div_of_not_dvd hodd
    have hmain : Nat.sqrt (2 ^ (2 * k + 1 + 2 * (52 - k))) / 2 ^ (52 - k)
        = Nat.sqrt (2 ^ (2 * k + 1)) := sqrt_pow_div (2 * k + 1) (52 - k)
    rw [show 2 * k + 1 + 2 * (52 - k) = 105 from by omega, sqrt_two_pow_105] at hmain
    rw [show (6369051672525773 : ℕ) = 6369051672525772 + 1 from rfl, hsucc, hmain]

theorem num_iterations_105 :
    num_iterations 105 = some (Nat.sqrt (2 ^ 105) + 1) := by
  have hval : sqrt2Sig * 2 ^ (105 / 2) / 2 ^ 52 = Nat.sqrt (2 ^ 105) + 1 := by
    rw [sqrt2Sig_eq, sqrt_two_pow_105, show (105 : ℕ) / 2 = 52 from by norm_num,
      Nat.mul_div_cancel _ (pow_pos (by norm_num) 52)]
  calc num_iterations 105 = some (sqrt2Sig * 2 ^ (105 / 2) / 2 ^ 52) := by
        unfold num_iterations
        rw [if_neg (by norm_num), if_neg (by norm_num)]
    _ = some (Nat.sqrt (2 ^ 105) + 1) := congrArg some hval

/-! ## Concrete evaluations (Nat.size and Nat.sqrt are not kernel-reducible,
so concrete values go through their characterising lemmas) -/

theorem size_nine : Nat.size 9 = 4 :=
  le_antisymm (Nat.size_le.mpr (by norm_num)) (Nat.lt_size.mpr (by norm_num))

theorem binFormat_nine : binFormat 9 3 = [true, false, false, true] := by
  unfold binFormat
  rw [size_nine]
  decide

theorem num_iterations_three : num_iterations 3 = some 2 := by
  rw [num_iterations_eq_sqrt (by norm_num)]
  refine congrArg some ?_
  have h1 : 2 ≤ Nat.sqrt 8 := Nat.le_sqrt.mpr (by norm_num)
  have h2 : Nat.sqrt 8 < 3 := Nat.sqrt_lt.mpr (by norm_num)
  show Nat.sqrt 8 = 2
  omega

theorem oracle_nine_isSome (c : Circuit) :
    (oracle c (List.range 3) 9).isSome = true := by
  rw [Option.isSome_iff_ne_none]
  intro hnone
  obtain ⟨j, hj, hget, hn3⟩ := (oracle_eq_none_iff 9 (by norm_num) c).mp hnone
  rw [binFormat_nine] at hj hget
  have hj3 : j = 3 := by simp at hj; omega
  subst hj3
  simp at hget

/-! ## Claims -/

/-- Claim C1: for every register size `n ≥ 1` and every target `t` in
`[0, 2 ^ n - 1]`, the gate sequence appended by the oracle builder (X on each
position whose bit of the target's `n`-bit encoding is '0', H on the last
position, multi-controlled X with all but the last position as controls, H on
the last position, the X layer again), interpreted as a unitary on the
amplitude vector, negates the amplitude of the basis state encoding `t` and
leaves every other basis state's amplitude unchanged. -/
theorem claim_C1_oracle_phase_flip {n t : Nat} (hn : 1 ≤ n) (ht : t < 2 ^ n)
    (c : Circuit) :
    ∃ gs, oracle c (List.range n) t = some ⟨c.nq, c.nc, c.gates ++ gs⟩ ∧
      ∀ (a : StateVec n) (s : QBasis n),
        applyGates gs a s = if s = tEnc n t then -(a s) else a s :=
  ⟨oracleGates n t, oracle_range_eq hn ht c,
    fun a s => by rw [oracleGates_action hn ht]⟩

theorem claim_C1_witness :
    1 ≤ 2 ∧ 2 < 2 ^ 2 ∧
      (∃ gs, oracle ⟨2, 2, []⟩ (List.range 2) 2 = some ⟨2, 2, [] ++ gs⟩ ∧
        ∀ (a : StateVec 2) (s : QBasis 2),
          applyGates gs a s = if s = tEnc 2 2 then -(a s) else a s) :=
  ⟨by decide, by decide, claim_C1_oracle_phase_flip (by decide) (by decide) ⟨2, 2, []⟩⟩

/-- Claim C2 is refuted as stated: for `n = 1` and the amplitude vector
concentrated on basis state 0, the diffuser's appended gate sequence produces
amplitude `-1` at basis state 1 while `2·mean − a` there equals `+1`. -/
theorem claim_C2_counterexample :
    ∃ c1 : Circuit, diffuser ⟨1, 1, []⟩ (List.range 1) = some c1 ∧
      applyGates c1.gates (deltaF 1) (allT 1)
        ≠ 2 * meanAmp 1 (deltaF 1) - deltaF 1 (allT 1) := by
  have hne : allT 1 ≠ allF 1 := by
    intro h
    have h0 := congrFun h ⟨0, by norm_num⟩
    simp [allT, allF] at h0
  have hS : sumAmp 1 (deltaF 1) = 1 := by
    rw [sumAmp]
    unfold deltaF
    rw [Finset.sum_ite_eq' Finset.univ (allF 1) (fun _ => (1 : Q2))]
    simp
  refine ⟨⟨1, 1, [] ++ diffuserGates 1⟩, diffuser_range_eq (by norm_num) ⟨1, 1, []⟩, ?_⟩
  show applyGates (diffuserGates 1) (deltaF 1) (allT 1)
      ≠ 2 * meanAmp 1 (deltaF 1) - deltaF 1 (allT 1)
  rw [diffuserGates_action (by norm_num)]
  show deltaF 1 (allT 1) - 2 * meanAmp 1 (deltaF 1)
      ≠ 2 * meanAmp 1 (deltaF 1) - deltaF 1 (allT 1)
  rw [meanAmp, hS]
  rw [show deltaF 1 (allT 1) = 0 from by unfold deltaF; rw [if_neg hne]]
  intro h
  have ha := congrArg Q2.a h
  simp [Q2.ofRat] at ha
  norm_num at ha

/-- Claim C2 (amended): the diffuser builder's appended gate sequence maps
every basis state's amplitude `a(s)` to `a(s) − 2·mean` — the negation of the
claimed inversion about the mean `2·mean − a(s)`, i.e. exact inversion about
the mean up to a global phase factor of `−1`. -/
theorem claim_C2_diffuser_action {n : Nat} (hn : 1 ≤ n) (c : Circuit) :
    ∃ gs, diffuser c (List.range n) = some ⟨c.nq, c.nc, c.gates ++ gs⟩ ∧
      ∀ (a : StateVec n) (s : QBasis n),
        applyGates gs a s = a s - 2 * meanAmp n a :=
  ⟨diffuserGates n, diffuser_range_eq hn c,
    fun a s => by rw [diffuserGates_action hn]⟩

theorem claim_C2_witness :
    1 ≤ 1 ∧
      (∃ gs, diffuser ⟨1, 1, []⟩ (List.range 1) = some ⟨1, 1, [] ++ gs⟩ ∧
        ∀ (a : StateVec 1) (s : QBasis 1),
          applyGates gs a s = a s - 2 * meanAmp 1 a) :=
  ⟨by decide, claim_C2_diffuser_action (by decide) ⟨1, 1, []⟩⟩

/-- Claim C3 is refuted as stated: at register size 1024 the driver
constructs no circuit at all — converting `2 ** 1024` to a double for
`math.sqrt` overflows, so the run aborts before any (oracle, diffuser) pair
or measurement is appended, contradicting the claim for every size. -/
theorem claim_C3_counterexample : grover_search 0 1024 = none := rfl

/-- Claim C3 (amended): for every register size `n` with `1 ≤ n ≤ 1023` and
every in-range target, the driver constructs a circuit with `n` quantum
positions and `n` classical slots: first a Hadamard on every position, then
exactly `iters` (oracle, diffuser) pairs in that order — where `iters` is the
count `num_iterations n` that the program computes through the
double-precision square root (for the program's configuration `n = 3` this is
`2 = ⌊√(2 ^ 3)⌋`) — and finally a measurement of every position `i` into
classical slot `i`, with nothing else appended and nothing before the
Hadamard layer; for `n ≥ 1024` no circuit is constructed (OverflowError). -/
theorem claim_C3_driver_shape {n t : Nat} (hn : 1 ≤ n) (ht : t < 2 ^ n) :
    (n ≤ 1023 → ∃ iters, num_iterations n = some iters) ∧
      (∀ iters, num_iterations n = some iters →
        grover_search t n
          = some ⟨n, n,
              (List.range n).map Gate.h ++
                (List.replicate iters
                  (oracleGates n t ++ diffuserGates n)).flatten ++
                (List.range n).map (fun i => Gate.measure i i)⟩) ∧
      num_iterations 3 = some 2 ∧
      (1024 ≤ n → grover_search t n = none) := by
  refine ⟨?_, fun iters hit => grover_search_eq hn ht hit, num_iterations_three, ?_⟩
  · intro hle
    unfold num_iterations
    rw [if_neg (by omega)]
    by_cases hpar : n % 2 = 0
    · exact ⟨_, by rw [if_pos hpar]⟩
    · exact ⟨_, by rw [if_neg hpar]⟩
  · intro hge
    simp only [grover_search, num_iterations_overflow hge]

theorem claim_C3_witness :
    1 ≤ 3 ∧ 5 < 2 ^ 3 ∧
      ((3 ≤ 1023 → ∃ iters, num_iterations 3 = some iters) ∧
        (∀ iters, num_iterations 3 = some iters →
          grover_search 5 3
            = some ⟨3, 3,
                (List.range 3).map Gate.h ++
                  (List.replicate iters
                    (oracleGates 3 5 ++ diffuserGates 3)).flatten ++
                  (List.range 3).map (fun i => Gate.measure i i)⟩) ∧
        num_iterations 3 = some 2 ∧
        (1024 ≤ 3 → grover_search 5 3 = none)) :=
  ⟨by norm_num, by norm_num, claim_C3_driver_shape (by norm_num) (by norm_num)⟩

/-- Claim C4 is refuted as stated: at register size 105 the iteration count
the program computes is `⌊√(2 ^ 105)⌋ + 1`, not the integer truncation — the
correctly rounded double square root lies just above the integer boundary, so
the count there is the ceiling, which differs from the floor. -/
theorem claim_C4_counterexample :
    num_iterations 105 = some (Nat.sqrt (2 ^ 105) + 1) ∧
      Nat.sqrt (2 ^ 105) + 1 ≠ Nat.sqrt (2 ^ 105) :=
  ⟨num_iterations_105, by omega⟩

/-- Claim C4 (amended): for every register size `n ≤ 104` the iteration count
equals the integer truncation `⌊√(2 ^ n)⌋` exactly — characterised by
`count² ≤ 2 ^ n < (count + 1)²`, which rules out rounding to nearest and
ceiling — and for `n = 3` the count is 2.  Beyond that bound the
double-precision computation deviates from truncation: at `n = 105` it
returns `⌊√(2 ^ 105)⌋ + 1`, and for `n ≥ 1024` it overflows and produces no
count at all. -/
theorem claim_C4_iteration_count :
    (∀ n, n ≤ 104 →
        num_iterations n = some (Nat.sqrt (2 ^ n)) ∧
          Nat.sqrt (2 ^ n) ^ 2 ≤ 2 ^ n ∧ 2 ^ n < (Nat.sqrt (2 ^ n) + 1) ^ 2) ∧
      num_iterations 3 = some 2 ∧
      num_iterations 105 = some (Nat.sqrt (2 ^ 105) + 1) ∧
      ∀ n, 1024 ≤ n → num_iterations n = none :=
  ⟨fun n hn =>
      ⟨num_iterations_eq_sqrt hn, Nat.sqrt_le' (2 ^ n), Nat.lt_succ_sqrt' (2 ^ n)⟩,
    num_iterations_three, num_iterations_105, fun _ hn => num_iterations_overflow hn⟩

theorem claim_C4_witness :
    3 ≤ 104 ∧ 1024 ≤ 1024 ∧
      (num_iterations 3 = some (Nat.sqrt (2 ^ 3)) ∧
        Nat.sqrt (2 ^ 3) ^ 2 ≤ 2 ^ 3 ∧ 2 ^ 3 < (Nat.sqrt (2 ^ 3) + 1) ^ 2) ∧
      num_iterations 1024 = none :=
  ⟨by norm_num, by norm_num, claim_C4_iteration_count.1 3 (by norm_num),
    claim_C4_iteration_count.2.2.2 1024 (by norm_num)⟩

/-- Claim C5: applying the diffuser builder's gate sequence twice in
succession (no oracle in between) is the identity on every amplitude
vector. -/
theorem claim_C5_diffuser_involutive {n : Nat} (hn : 1 ≤ n) (c : Circuit) :
    ∃ c2, (diffuser c (List.range n)).bind (fun c1 => diffuser c1 (List.range n))
        = some c2 ∧
      c2.gates = c.gates ++ (diffuserGates n ++ diffuserGates n) ∧
      ∀ a : StateVec n, applyGates (diffuserGates n ++ diffuserGates n) a = a := by
  refine ⟨⟨c.nq, c.nc, c.gates ++ (diffuserGates n ++ diffuserGates n)⟩, ?_, rfl,
    fun a => diffuserGates_twice hn a⟩
  rw [diffuser_range_eq hn c]
  show diffuser ⟨c.nq, c.nc, c.gates ++ diffuserGates n⟩ (List.range n) = _
  rw [diffuser_range_eq hn]
  simp [List.append_assoc]

theorem claim_C5_witness :
    1 ≤ 1 ∧
      (∃ c2, (diffuser ⟨1, 1, []⟩ (List.range 1)).bind
            (fun c1 => diffuser c1 (List.range 1)) = some c2 ∧
        c2.gates = [] ++ (diffuserGates 1 ++ diffuserGates 1) ∧
        ∀ a : StateVec 1, applyGates (diffuserGates 1 ++ diffuserGates 1) a = a) :=
  ⟨by decide, claim_C5_diffuser_involutive (by decide) ⟨1, 1, []⟩⟩

/-- Claim C6 is refuted as stated: the out-of-range target 9 with n = 3
(encoding '1001', wider than 3) makes the oracle builder complete without any
out-of-bounds access, because every encoding character at index ≥ 3 is '1'. -/
theorem claim_C6_counterexample :
    2 ^ 3 ≤ 9 ∧ 3 < (binFormat 9 3).length ∧
      (oracle ⟨3, 3, []⟩ (List.range 3) 9).isSome = true :=
  ⟨by norm_num, by rw [binFormat_nine]; norm_num, oracle_nine_isSome ⟨3, 3, []⟩⟩

/-- Claim C6 (amended): for every `n ≥ 1` and every target `t ≥ 2 ^ n`, the
binary encoding is wider than `n` characters, and the oracle's bit-flip loop
performs an unguarded out-of-bounds register access (IndexError, modelled as
`none`) exactly when some encoding character at an index ≥ `n` is '0' — not
for every out-of-range target. -/
theorem claim_C6_out_of_range {n t : Nat} (hn : 1 ≤ n) (ht : 2 ^ n ≤ t)
    (c : Circuit) :
    n < (binFormat t n).length ∧
      (oracle c (List.range n) t = none
        ↔ ∃ j, j < (binFormat t n).length ∧ (binFormat t n)[j]? = some false ∧
            n ≤ j) :=
  ⟨binFormat_length_gt ht, oracle_eq_none_iff t hn c⟩

theorem claim_C6_witness :
    1 ≤ 3 ∧ 2 ^ 3 ≤ 10 ∧
      (3 < (binFormat 10 3).length ∧
        (oracle ⟨3, 3, []⟩ (List.range 3) 10 = none
          ↔ ∃ j, j < (binFormat 10 3).length ∧ (binFormat 10 3)[j]? = some false ∧
              3 ≤ j)) :=
  ⟨by decide, by decide, claim_C6_out_of_range (by decide) (by decide) ⟨3, 3, []⟩⟩

/-- Claim C7: for every `n ≥ 1`, the boundary targets 0 (all-zero encoding)
and `2 ^ n − 1` (all-one encoding) both complete with no index-out-of-range
condition in the bit-flip loops, and the appended sequence phase-flips exactly
the corresponding boundary basis state. -/
theorem claim_C7_boundary_targets {n : Nat} (hn : 1 ≤ n) (c : Circuit) :
    (∃ gs, oracle c (List.range n) 0 = some ⟨c.nq, c.nc, c.gates ++ gs⟩ ∧
        ∀ (a : StateVec n) (s : QBasis n),
          applyGates gs a s = if s = tEnc n 0 then -(a s) else a s) ∧
      (∃ gs, oracle c (List.range n) (2 ^ n - 1)
            = some ⟨c.nq, c.nc, c.gates ++ gs⟩ ∧
        ∀ (a : StateVec n) (s : QBasis n),
          applyGates gs a s = if s = tEnc n (2 ^ n - 1) then -(a s) else a s) := by
  have hp : 0 < 2 ^ n := pow_pos (by norm_num) n
  constructor
  · exact ⟨oracleGates n 0, oracle_range_eq hn hp c,
      fun a s => by rw [oracleGates_action hn hp]⟩
  · have hb : 2 ^ n - 1 < 2 ^ n := by omega
    exact ⟨oracleGates n (2 ^ n - 1), oracle_range_eq hn hb c,
      fun a s => by rw [oracleGates_action hn hb]⟩

theorem claim_C7_witness :
    1 ≤ 3 ∧
      ((∃ gs, oracle ⟨3, 3, []⟩ (List.range 3) 0 = some ⟨3, 3, [] ++ gs⟩ ∧
          ∀ (a : StateVec 3) (s : QBasis 3),
            applyGates gs a s = if s = tEnc 3 0 then -(a s) else a s) ∧
        (∃ gs, oracle ⟨3, 3, []⟩ (List.range 3) (2 ^ 3 - 1)
              = some ⟨3, 3, [] ++ gs⟩ ∧
          ∀ (a : StateVec 3) (s : QBasis 3),
            applyGates gs a s = if s = tEnc 3 (2 ^ 3 - 1) then -(a s) else a s)) :=
  ⟨by decide, claim_C7_boundary_targets (by decide) ⟨3, 3, []⟩⟩

/-- Claim C8: for an in-range target (the data model's Target Value lies in
`[0, 2 ^ n − 1]`) with `n ≥ 1`, the computed binary encoding has exactly `n`
characters, zero-padded on the left: character `i` is bit `n − 1 − i` of the
target, the bit the loop applies to register position `i`. -/
theorem claim_C8_encoding_width {n t : Nat} (hn : 1 ≤ n) (ht : t < 2 ^ n) :
    (binFormat t n).length = n ∧
      ∀ i, i < n → (binFormat t n)[i]? = some (t.testBit (n - 1 - i)) :=
  ⟨binFormat_length_of_lt hn ht, fun _ hi => binFormat_getElem? hn ht hi⟩

theorem claim_C8_witness :
    1 ≤ 3 ∧ 5 < 2 ^ 3 ∧
      ((binFormat 5 3).length = 3 ∧
        ∀ i, i < 3 → (binFormat 5 3)[i]? = some (Nat.testBit 5 (3 - 1 - i))) :=
  ⟨by decide, by decide, claim_C8_encoding_width (by decide) (by decide)⟩

/-- Claim C9: for every circuit, nonempty register and in-range target, the
oracle builder and the diffuser builder each succeed and only append gates:
the quantum and classical sizes and all previously appended gates are
unchanged, and no appended gate is a measurement. -/
theorem claim_C9_builders_append_only {t : Nat} (c : Circuit) (qubits : List Nat)
    (hne : qubits ≠ []) (ht : t < 2 ^ qubits.length) :
    (∃ gs, oracle c qubits t = some ⟨c.nq, c.nc, c.gates ++ gs⟩ ∧
        ∀ g ∈ gs, g.isMeasure = false) ∧
      (∃ gs, diffuser c qubits = some ⟨c.nq, c.nc, c.gates ++ gs⟩ ∧
        ∀ g ∈ gs, g.isMeasure = false) :=
  ⟨oracle_frame c qubits hne ht, diffuser_frame c qubits hne⟩

theorem claim_C9_witness :
    ([0, 1] : List Nat) ≠ [] ∧ 3 < 2 ^ ([0, 1] : List Nat).length ∧
      ((∃ gs, oracle ⟨2, 2, [Gate.h 0]⟩ [0, 1] 3
            = some ⟨2, 2, [Gate.h 0] ++ gs⟩ ∧
          ∀ g ∈ gs, g.isMeasure = false) ∧
        (∃ gs, diffuser ⟨2, 2, [Gate.h 0]⟩ [0, 1]
            = some ⟨2, 2, [Gate.h 0] ++ gs⟩ ∧
          ∀ g ∈ gs, g.isMeasure = false)) :=
  ⟨by decide, by decide,
    claim_C9_builders_append_only ⟨2, 2, [Gate.h 0]⟩ [0, 1] (by decide) (by decide)⟩

/-- Claim C10: there is an out-of-range target (t = 9, n = 3, encoding
'1001') for which the oracle builder completes with no out-of-bounds access —
each extra character is '1' so the bit-flip loop skips the positions past
`n − 1` — and in general the out-of-bounds failure occurs exactly when some
character of the wide encoding at an index ≥ `n` is '0'. -/
theorem claim_C10_silent_wide_encoding :
    (2 ^ 3 ≤ 9 ∧ 3 < (binFormat 9 3).length ∧
        ∀ c : Circuit, (oracle c (List.range 3) 9).isSome = true) ∧
      ∀ (n t : Nat) (c : Circuit), 1 ≤ n →
        (oracle c (List.range n) t = none
          ↔ ∃ j, j < (binFormat t n).length ∧ (binFormat t n)[j]? = some false ∧
              n ≤ j) := by
  constructor
  · exact ⟨by norm_num, by rw [binFormat_nine]; norm_num, oracle_nine_isSome⟩
  · intro n t c hn
    exact oracle_eq_none_iff t hn c

theorem claim_C10_witness :
    1 ≤ 3 ∧
      (oracle ⟨3, 3, []⟩ (List.range 3) 10 = none
        ↔ ∃ j, j < (binFormat 10 3).length ∧ (binFormat 10 3)[j]? = some false ∧
            3 ≤ j) :=
  ⟨by decide, claim_C10_silent_wide_encoding.2 3 10 ⟨3, 3, []⟩ (by decide)⟩
